import Mathlib

/-!
Verification of the template-parsing engine of the locale loader
(`src/leptos_i18n_macro/src/load_locales/parsed_value.rs`).

Strings are modelled as `List Char` (Rust operates on UTF-8 byte slices; every
index and length below is therefore a character count, which coincides with the
byte count on ASCII inputs, and all positional reasoning in the source is
pattern-based, not encoding-based).  Rust `Option`/fallible results map to
`Option`/`Except`.  The two general recursions of the source, namely the
candidate-skip loop of `find_valid_component` and the recursion of
`ParsedValue::new` into sub-strings, are embedded with an explicit fuel
parameter that is structurally decreasing; the entry points instantiate the
fuel with `length + 1`, and fuel-irrelevance above the input length is proved
(`newF_stable`), so the embedding is total and fuel never runs out at the entry
points.

The repository files `key.rs` and `plural.rs` are not part of the given
sources; the definitions taken from them (`Key.try_new` and the `Plurals`
functions) are modelled from the specification and carry a doc comment saying
so.
-/

/-- Coerce a Lean string literal to the `List Char` string model. -/
def strL (s : String) : List Char := s.data

/-- Model of Rust `str::trim_start` (whitespace at the front removed). -/
def trimStart (s : List Char) : List Char := s.dropWhile Char.isWhitespace

/-- Model of Rust `str::trim_end`. -/
def trimEnd (s : List Char) : List Char := (s.reverse.dropWhile Char.isWhitespace).reverse

/-- Model of Rust `str::trim`. -/
def trim (s : List Char) : List Char := trimEnd (trimStart s)

/-- Model of Rust `str::split_once`: split at the first occurrence of `pat`,
returning the text before and after it. -/
def splitOnce (pat : List Char) : List Char → Option (List Char × List Char)
  | [] => none
  | c :: rest =>
    if pat.isPrefixOf (c :: rest) then some ([], (c :: rest).drop pat.length)
    else (splitOnce pat rest).map (fun p => (c :: p.1, p.2))

/-- The `\x7b\x7b` opening delimiter of a variable placeholder (two opening
curly braces). -/
def varOpenDelim : List Char := ['\x7b', '\x7b']

/-- The closing delimiter of a variable placeholder (two closing curly
braces). -/
def varCloseDelim : List Char := ['\x7d', '\x7d']

/-- True when `pat` occurs as a contiguous substring of `s`. -/
def occursIn (pat s : List Char) : Bool := (splitOnce pat s).isSome

/-- The key type of `key.rs` (only its name is relevant here). -/
structure Key where
  name : List Char
deriving DecidableEq

/-- First character of a legal identifier. -/
def isIdentHeadChar (c : Char) : Bool := c.isAlpha || c = '_'

/-- Later characters of a legal identifier. -/
def isIdentTailChar (c : Char) : Bool := c.isAlphanum || c = '_'

/-- Syntactically legal identifier in the generation environment. -/
def isValidIdent : List Char → Bool
  | [] => false
  | c :: rest => isIdentHeadChar c && rest.all isIdentTailChar

/-- Modelled from the spec: `Key::try_new` of `key.rs` (a file not in the given
sources).  Key construction is a pure, fallible function: it validates that the
given name is a syntactically legal identifier and fails otherwise. -/
def Key.try_new (s : List Char) : Option Key :=
  if isValidIdent s then some ⟨s⟩ else none

/-- Modelled from the spec: the plural category type of `plural.rs` (a file not
in the given sources), an enumerable category tag. -/
inductive PluralType where
  | cardinal
  | ordinal
deriving DecidableEq

/-- Modelled from the spec: the known value domain of the category tags. -/
inductive PluralCategory where
  | zero
  | one
  | two
  | few
  | many
deriving DecidableEq

/-- Modelled from the spec: a plural-form selector, either a concrete
cardinal/ordinal category or the designated fallback/other marker. -/
inductive PluralForm where
  | cardinalCat (c : PluralCategory)
  | ordinalCat (c : PluralCategory)
  | fallback
deriving DecidableEq

/-- The AST of `parsed_value.rs`.  The `Plural` constructor inlines the two
fields of the `Plurals` struct of `plural.rs` (its inferred type and its
ordered branches), because Lean mutual structures are not available; the
`Plurals` structure below packages them back. -/
inductive ParsedValue where
  | Plural (plural_type : PluralType) (branches : List (PluralForm × ParsedValue))
  | String (s : List Char)
  | Variable (key : Key)
  | Component (key : Key) (inner : ParsedValue)
  | Bloc (values : List ParsedValue)

/-- Modelled from the spec: the `Plurals` struct of `plural.rs`, an ordered
mapping from plural-form selector to branch plus the inferred category type. -/
structure Plurals where
  plural_type : PluralType
  branches : List (PluralForm × ParsedValue)

/-- The interpolation-key view used for deduplication (`InterpolateKey` in the
source; lifetimes dropped). -/
inductive InterpolateKey where
  | Count (plural_type : PluralType)
  | Variable (key : Key)
  | Component (key : Key)
deriving DecidableEq

/-- All indices at which character `c` occurs, starting the numbering at `i`. -/
def matchIndicesFrom (c : Char) (i : Nat) : List Char → List Nat
  | [] => []
  | x :: rest =>
    if x = c then i :: matchIndicesFrom c (i + 1) rest
    else matchIndicesFrom c (i + 1) rest

/-- Model of Rust `str::match_indices` for a single character pattern. -/
def matchIndices (c : Char) (s : List Char) : List Nat := matchIndicesFrom c 0 s

/-- Model of `ident.strip_prefix('/')` applied in `find_closing_tag`. -/
def stripLeadingSlash : List Char → Option (List Char)
  | '/' :: rest => some rest
  | _ => none

/-- The candidate iterator of `find_closing_tag`: for every index `i` with a
`<` character, pair `i` with the trimmed text between that `<` and the first
following `>` (candidates whose `<` has no later `>` are dropped), exactly as
`value.match_indices('<').filter_map(..split_once('>')..trim..)` does. -/
def tagCandidates (value : List Char) : List (Nat × List Char) :=
  (matchIndices '<' value).filterMap (fun i =>
    (splitOnce ['>'] (value.drop (i + 1))).map (fun p => (i, trim p.1)))

/-- One iteration of the `for (i, ident) in iter` loop of `find_closing_tag`;
the state is the mutable pair `(indices, depth)` of the source.  On a same-name
closing tag at depth 0 the end index is `i + ident.len() + 2` computed from the
trimmed ident, exactly as in the source. -/
def closingStep (key : List Char) (st : Option (Nat × Nat) × Nat) (c : Nat × List Char) :
    Option (Nat × Nat) × Nat :=
  match stripLeadingSlash c.2 with
  | some rest =>
    let closing_tag := trimStart rest
    if closing_tag ≠ key then st
    else if st.2 = 0 then (some (c.1, c.1 + c.2.length + 2), st.2)
    else (st.1, st.2 - 1)
  | none => if c.2 = key then (st.1, st.2 + 1) else st

/-- `ParsedValue::find_closing_tag` (source lines 123-154): validate the
component key, run the depth-tracking scan over all tag candidates, and split
the input at the recorded match indices. -/
def ParsedValue.find_closing_tag (value : List Char) (key : List Char) :
    Option (Key × List Char × List Char) :=
  match Key.try_new (strL "comp_" ++ key) with
  | none => none
  | some key_ident =>
    match ((tagCandidates value).foldl (closingStep key) (none, 0)).1 with
    | none => none
    | some (s, e) => some (key_ident, value.take s, value.drop e)

/-- `ParsedValue::find_opening_tag` (source lines 156-163).  The skip distance
is computed from the raw ident before trimming, as in the source. -/
def ParsedValue.find_opening_tag (value : List Char) :
    Option (List Char × List Char × List Char × Nat) :=
  match splitOnce ['<'] value with
  | none => none
  | some (before, rest) =>
    match splitOnce ['>'] rest with
    | none => none
    | some (ident, after) => some (before, trim ident, after, before.length + ident.length + 2)

/-- The `loop` of `ParsedValue::find_valid_component` (source lines 94-106)
with its forward-only cursor `skip_sum`; the fuel argument only bounds the
number of iterations and is structurally decreasing (each iteration advances
`skip_sum` by at least 2, so `value.length + 1` fuel is never exhausted, see
`find_valid_component_aux_stable`). -/
def ParsedValue.find_valid_component_aux (value : List Char) :
    Nat → Nat → Option (Key × List Char × List Char × List Char)
  | 0, _ => none
  | fuel + 1, skip_sum =>
    match ParsedValue.find_opening_tag (value.drop skip_sum) with
    | none => none
    | some (before, key, after, skip) =>
      match ParsedValue.find_closing_tag after key with
      | some (key', beetween, after') =>
        some (key', value.take (skip_sum + before.length), beetween, after')
      | none => ParsedValue.find_valid_component_aux value fuel (skip_sum + skip)

/-- `ParsedValue::find_valid_component` (source lines 94-106). -/
def ParsedValue.find_valid_component (value : List Char) :
    Option (Key × List Char × List Char × List Char) :=
  ParsedValue.find_valid_component_aux value (value.length + 1) 0

/-- `ParsedValue::find_variable` (source lines 81-92), abstracted over the
recursive parser `p` (the source calls `Self::new`); `ParsedValue.newF` ties
the knot. -/
def ParsedValue.find_variable (p : List Char → ParsedValue) (value : List Char) :
    Option ParsedValue :=
  match splitOnce varOpenDelim value with
  | none => none
  | some (before, rest) =>
    match splitOnce varCloseDelim rest with
    | none => none
    | some (ident, after) =>
      match Key.try_new (strL "var_" ++ trim ident) with
      | none => none
      | some key => some (ParsedValue.Bloc [p before, ParsedValue.Variable key, p after])

/-- `ParsedValue::find_component` (source lines 108-121), abstracted over the
recursive parser `p`. -/
def ParsedValue.find_component (p : List Char → ParsedValue) (value : List Char) :
    Option ParsedValue :=
  match ParsedValue.find_valid_component value with
  | none => none
  | some (key, before, beetween, after) =>
    some (ParsedValue.Bloc [p before, ParsedValue.Component key (p beetween), p after])

/-- `ParsedValue::new` (source lines 67-79) with explicit structural fuel for
the recursion into sub-strings; all recursive calls are on strictly shorter
strings (`find_valid_component_sub`, `splitOnce_length`), so `length + 1` fuel
is never exhausted (`newF_stable`). -/
def ParsedValue.newF : Nat → List Char → ParsedValue
  | 0, value => ParsedValue.String value
  | fuel + 1, value =>
    match ParsedValue.find_component (ParsedValue.newF fuel) value with
    | some component => component
    | none =>
      match ParsedValue.find_variable (ParsedValue.newF fuel) value with
      | some variab => variab
      | none => ParsedValue.String value

/-- `ParsedValue::new`: the parser entry point. -/
def ParsedValue.new (value : List Char) : ParsedValue :=
  ParsedValue.newF (value.length + 1) value

/-- Model of `keys.get_or_insert_with(HashSet::new).insert(k)` on the mutable
`Option<HashSet<_>>` accumulator: the resulting set.  Hash sets are modelled as
`Finset`. -/
def insertKey (k : InterpolateKey) (keys : Option (Finset InterpolateKey)) :
    Finset InterpolateKey :=
  insert k (keys.getD ∅)

mutual

/-- `ParsedValue::get_keys_inner` (source lines 28-52), with the mutable
`&mut Option<HashSet>` argument threaded as explicit state.  The `Plural` case
first folds `Plurals::get_keys_inner` over the branch values (that function
lives in `plural.rs`, not in the given sources, and is modelled from the spec:
the union over all branches' contributions) and then inserts the `Count` key,
as in the source. -/
def ParsedValue.get_keys_inner :
    ParsedValue → Option (Finset InterpolateKey) → Option (Finset InterpolateKey)
  | ParsedValue.String _, keys => keys
  | ParsedValue.Variable key, keys => some (insertKey (InterpolateKey.Variable key) keys)
  | ParsedValue.Component key inner, keys =>
    ParsedValue.get_keys_inner inner (some (insertKey (InterpolateKey.Component key) keys))
  | ParsedValue.Bloc values, keys => ParsedValue.get_keys_inner_list values keys
  | ParsedValue.Plural plural_type branches, keys =>
    some (insertKey (InterpolateKey.Count plural_type)
      (ParsedValue.get_keys_inner_branches branches keys))

/-- The `for value in values` loop of the `Bloc` case of `get_keys_inner`. -/
def ParsedValue.get_keys_inner_list :
    List ParsedValue → Option (Finset InterpolateKey) → Option (Finset InterpolateKey)
  | [], keys => keys
  | v :: vs, keys => ParsedValue.get_keys_inner_list vs (ParsedValue.get_keys_inner v keys)

/-- Modelled from the spec: `Plurals::get_keys_inner` of `plural.rs` folds the
collector over every branch value. -/
def ParsedValue.get_keys_inner_branches :
    List (PluralForm × ParsedValue) → Option (Finset InterpolateKey) →
      Option (Finset InterpolateKey)
  | [], keys => keys
  | b :: bs, keys => ParsedValue.get_keys_inner_branches bs (ParsedValue.get_keys_inner b.2 keys)

end

/-- `ParsedValue::get_keys` (source lines 54-58). -/
def ParsedValue.get_keys (v : ParsedValue) : Option (Finset InterpolateKey) :=
  ParsedValue.get_keys_inner v none

mutual

/-- Reference key set of an AST node, written from the spec's traversal rules:
`Literal` nothing, `Variable k` the key `Variable k`, `Component` its key plus
the inner contribution, `Sequence` the union over children, `Plural` the union
over branches plus one `Count` entry. -/
def keySet : ParsedValue → Finset InterpolateKey
  | ParsedValue.String _ => ∅
  | ParsedValue.Variable k => {InterpolateKey.Variable k}
  | ParsedValue.Component k inner => insert (InterpolateKey.Component k) (keySet inner)
  | ParsedValue.Bloc vs => keySetList vs
  | ParsedValue.Plural t bs => insert (InterpolateKey.Count t) (keySetBranches bs)

/-- Union of the reference key sets of a list of nodes. -/
def keySetList : List ParsedValue → Finset InterpolateKey
  | [] => ∅
  | v :: vs => keySet v ∪ keySetList vs

/-- Union of the reference key sets of the branches of a plural node. -/
def keySetBranches : List (PluralForm × ParsedValue) → Finset InterpolateKey
  | [] => ∅
  | b :: bs => keySet b.2 ∪ keySetBranches bs

end

/-- `ParsedValueSeed` (source lines 260-266); the Rust field `namespace` keeps
its name through guillemets because `namespace` is a Lean keyword. -/
structure ParsedValueSeed where
  in_plural : Bool
  locale : List Char
  locale_key : List Char
  «namespace» : Option (List Char)

/-- The two shapes a deserializer can hand to `ParsedValueSeed`: a scalar
string (`visit_str`) or an ordered mapping of plural-form selector to nested
value (`visit_map`). -/
inductive RawValue where
  | str (s : List Char)
  | map (entries : List (PluralForm × RawValue))

/-- Rust `{:?}` debug formatting of a string slice: the text surrounded by
double quotes (escape sequences inside the text are not modelled; no claim
depends on them). -/
def rustDebugStr (s : List Char) : List Char := '"' :: (s ++ ['"'])

/-- The context text of every error message built by `visit_map` (source lines
295-348): each `format!` arm produces
`in locale {:?} at key {:?}: <tail>`, with ` at namespace {:?}` inserted when a
namespace is present. -/
def ctxMsg (seed : ParsedValueSeed) (tail : List Char) : List Char :=
  match seed.«namespace» with
  | some ns =>
    strL "in locale " ++ rustDebugStr seed.locale ++ strL " at namespace " ++ rustDebugStr ns ++
      strL " at key " ++ rustDebugStr seed.locale_key ++ strL ": " ++ tail
  | none =>
    strL "in locale " ++ rustDebugStr seed.locale ++ strL " at key " ++
      rustDebugStr seed.locale_key ++ strL ": " ++ tail

/-- True exactly on the fallback/other marker. -/
def PluralForm.isFallbackForm : PluralForm → Bool
  | PluralForm.fallback => true
  | _ => false

/-- A fallback marker appears somewhere other than the last position of the
authored ordering. -/
def fallbackMisplaced : List PluralForm → Bool
  | [] => false
  | [_] => false
  | f :: rest => f.isFallbackForm || fallbackMisplaced rest

/-- Number of fallback markers present. -/
def countFallbacks (forms : List PluralForm) : Nat :=
  forms.countP (fun f => f.isFallbackForm)

/-- Modelled from the spec: the plural category type inferred from which
selectors are present (`plural.rs` is not in the given sources). -/
def inferPluralType (forms : List PluralForm) : PluralType :=
  if forms.any (fun f => match f with | PluralForm.ordinalCat _ => true | _ => false) then
    PluralType.ordinal
  else PluralType.cardinal

/-- Modelled from the spec: the known value domain of the category tags. -/
def categoryDomain : List PluralCategory :=
  [PluralCategory.zero, PluralCategory.one, PluralCategory.two, PluralCategory.few,
   PluralCategory.many]

/-- A concrete selector covering category `c` of type `t`. -/
def coversCategory (t : PluralType) (c : PluralCategory) (f : PluralForm) : Bool :=
  match t, f with
  | PluralType.cardinal, PluralForm.cardinalCat c' => c = c'
  | PluralType.ordinal, PluralForm.ordinalCat c' => c = c'
  | _, _ => false

/-- Modelled from the spec: the set of concrete selectors is exhaustive for the
inferred type, so no fallback branch is mandated. -/
def pluralExhaustive (t : PluralType) (forms : List PluralForm) : Bool :=
  categoryDomain.all (fun c => forms.any (coversCategory t c))

/-- `Plurals::get_type` of `plural.rs`, modelled from the spec: the inferred
category type stored in the node. -/
def Plurals.get_type (p : Plurals) : PluralType := p.plural_type

/-- Modelled from the spec: a fallback is mandated exactly when the concrete
selectors are not exhaustive for the inferred type. -/
def Plurals.should_have_fallback (p : Plurals) : Bool :=
  ! pluralExhaustive p.plural_type (p.branches.map Prod.fst)

/-- `Plurals::check_deserialization` of `plural.rs`, modelled from the spec:
the triple `(invalid_fallback, fallback_count, should_have_fallback)` consumed
by `visit_map`. -/
def Plurals.check_deserialization (p : Plurals) : Bool × Nat × Bool :=
  (fallbackMisplaced (p.branches.map Prod.fst),
   countFallbacks (p.branches.map Prod.fst),
   p.should_have_fallback)

/-- Rust `{:?}` debug formatting of the category-type tag. -/
def pluralTypeDebug : PluralType → List Char
  | PluralType.cardinal => strL "Cardinal"
  | PluralType.ordinal => strL "Ordinal"

mutual

/-- `DeserializeSeed`/`Visitor` dispatch for `ParsedValueSeed` (source lines
268-287): a scalar string goes through `visit_str`, which parses it with
`ParsedValue::new`; a mapping goes through `visit_map`. -/
def ParsedValueSeed.deserialize (seed : ParsedValueSeed) :
    RawValue → Except (List Char) ParsedValue
  | RawValue.str v => Except.ok (ParsedValue.new v)
  | RawValue.map entries => ParsedValueSeed.visit_map seed entries
termination_by rv => (sizeOf rv, 0)

/-- `ParsedValueSeed::visit_map` (source lines 289-352): reject while already
inside a plural, build the plurals (with `in_plural` switched to `true`, as
`std::mem::replace` does), then run the fallback checks in source order. -/
def ParsedValueSeed.visit_map (seed : ParsedValueSeed)
    (entries : List (PluralForm × RawValue)) : Except (List Char) ParsedValue :=
  if seed.in_plural then
    Except.error (ctxMsg seed (strL "nested plurals are not allowed"))
  else
    match Plurals.from_serde_map { seed with in_plural := true } entries with
    | Except.error e => Except.error e
    | Except.ok plurals =>
      let checked := plurals.check_deserialization
      if checked.1 then
        Except.error (ctxMsg seed (strL "fallback is only allowed in last position"))
      else if checked.2.1 > 1 then
        Except.error (ctxMsg seed (strL "multiple fallbacks are not allowed"))
      else if checked.2.1 = 0 && checked.2.2 then
        Except.error (ctxMsg seed (strL "for plural type " ++ pluralTypeDebug plurals.get_type ++
          strL " a fallback is required"))
      else
        Except.ok (ParsedValue.Plural plurals.plural_type plurals.branches)
termination_by (sizeOf entries, 3)

/-- Modelled from the spec: `Plurals::from_serde_map` of `plural.rs`
deserializes every branch value with the given seed and infers the category
type from the selectors present. -/
def Plurals.from_serde_map (seed : ParsedValueSeed)
    (entries : List (PluralForm × RawValue)) : Except (List Char) Plurals :=
  match Plurals.from_serde_map_branches seed entries with
  | Except.error e => Except.error e
  | Except.ok bs => Except.ok ⟨inferPluralType (bs.map Prod.fst), bs⟩
termination_by (sizeOf entries, 2)

/-- Modelled from the spec: the branch-by-branch deserialization loop of
`Plurals::from_serde_map`, propagating the first error. -/
def Plurals.from_serde_map_branches (seed : ParsedValueSeed) :
    List (PluralForm × RawValue) → Except (List Char) (List (PluralForm × ParsedValue))
  | [] => Except.ok []
  | (f, rv) :: rest =>
    match ParsedValueSeed.deserialize seed rv with
    | Except.error err => Except.error err
    | Except.ok v =>
      match Plurals.from_serde_map_branches seed rest with
      | Except.error err => Except.error err
      | Except.ok vs => Except.ok ((f, v) :: vs)
termination_by es => (sizeOf es, 1)

end

/-- True on the scalar-string shape of a raw value. -/
def RawValue.isStr : RawValue → Bool
  | RawValue.str _ => true
  | RawValue.map _ => false

/-- The closing-tag scan exactly as the code behaves (amended claim C1): depth
increments on every later same-name opening tag, decrements on a same-name
closing tag seen while depth is positive, and a same-name closing tag seen at
depth 0 becomes the match unless a later one (scanned at the prevailing depth)
replaces it, so the final match is the last such occurrence. -/
def closingScanMatch (key : List Char) : Nat → List (Nat × List Char) → Option (Nat × Nat)
  | _, [] => none
  | depth, c :: rest =>
    match stripLeadingSlash c.2 with
    | some r =>
      if trimStart r ≠ key then closingScanMatch key depth rest
      else if depth = 0 then
        match closingScanMatch key depth rest with
        | some m => some m
        | none => some (c.1, c.1 + c.2.length + 2)
      else closingScanMatch key (depth - 1) rest
    | none =>
      if c.2 = key then closingScanMatch key (depth + 1) rest
      else closingScanMatch key depth rest

/-- The closing-tag scan as claim C1 words it: the same depth rules, but the
first same-name closing tag seen at depth 0 is the match, later ones never
changing it. -/
def closingScanFirst (key : List Char) : Nat → List (Nat × List Char) → Option (Nat × Nat)
  | _, [] => none
  | depth, c :: rest =>
    match stripLeadingSlash c.2 with
    | some r =>
      if trimStart r ≠ key then closingScanFirst key depth rest
      else if depth = 0 then some (c.1, c.1 + c.2.length + 2)
      else closingScanFirst key (depth - 1) rest
    | none =>
      if c.2 = key then closingScanFirst key (depth + 1) rest
      else closingScanFirst key depth rest

/-- Claim C1's reading of `find_closing_tag`, built from `closingScanFirst`:
the first same-name closing tag at depth 0 is the match. -/
def find_closing_tag_claimed (value key : List Char) : Option (Key × List Char × List Char) :=
  match Key.try_new (strL "comp_" ++ key) with
  | none => none
  | some key_ident =>
    (closingScanFirst key 0 (tagCandidates value)).map
      (fun p => (key_ident, value.take p.1, value.drop p.2))

/-- Merge a contribution set into the optional accumulator: the reference form
of what threading the mutable `Option<HashSet>` through a subtree does. -/
def mergeOpt (keys : Option (Finset InterpolateKey)) (s : Finset InterpolateKey) :
    Option (Finset InterpolateKey) :=
  match keys with
  | some t => some (t ∪ s)
  | none => if s = ∅ then none else some s

/-- Every `Bloc` node in the tree is a three-element sequence whose middle
element is a `Variable` or a `Component` node (the shape the parser emits);
this is the amended form of claim C2. -/
inductive TernaryBlocs : ParsedValue → Prop where
  | string (s : List Char) : TernaryBlocs (ParsedValue.String s)
  | var (k : Key) : TernaryBlocs (ParsedValue.Variable k)
  | comp (k : Key) (inner : ParsedValue) :
      TernaryBlocs inner → TernaryBlocs (ParsedValue.Component k inner)
  | plural (t : PluralType) (bs : List (PluralForm × ParsedValue)) :
      (∀ b ∈ bs, TernaryBlocs b.2) → TernaryBlocs (ParsedValue.Plural t bs)
  | blocVar (a : ParsedValue) (k : Key) (c : ParsedValue) :
      TernaryBlocs a → TernaryBlocs c →
      TernaryBlocs (ParsedValue.Bloc [a, ParsedValue.Variable k, c])
  | blocComp (a : ParsedValue) (k : Key) (inner c : ParsedValue) :
      TernaryBlocs a → TernaryBlocs inner → TernaryBlocs c →
      TernaryBlocs (ParsedValue.Bloc [a, ParsedValue.Component k inner, c])

/-- True exactly on a `Bloc` (sequence) node. -/
def isBlocNode : ParsedValue → Bool
  | ParsedValue.Bloc _ => true
  | _ => false

/-- True when the node is a `Bloc` having a `Bloc` among its elements: a
sequence that directly contains another sequence. -/
def hasBlocElem : ParsedValue → Bool
  | ParsedValue.Bloc vs => vs.any isBlocNode
  | _ => false

/-- The input contains no complete variable-delimiter pair: either no opening
double brace at all, or no closing double brace after the first opening one
(the hypothesis of claim C6, phrased on the code's own first-split search). -/
def noVarPairB (value : List Char) : Bool :=
  match splitOnce varOpenDelim value with
  | none => true
  | some (_, rest) => (splitOnce varCloseDelim rest).isNone

/-- The first variable-delimiter pair of the input exists but its trimmed
ident, prefixed with `var_`, fails `Key` construction (the hypothesis of claim
C7). -/
def firstVarKeyFails (value : List Char) : Bool :=
  match splitOnce varOpenDelim value with
  | none => false
  | some (_, rest) =>
    match splitOnce varCloseDelim rest with
    | none => false
    | some (ident, _) => (Key.try_new (strL "var_" ++ trim ident)).isNone

theorem splitOnce_eq_some (pat : List Char) :
    ∀ (s before after : List Char), splitOnce pat s = some (before, after) →
      s = before ++ pat ++ after := by
  intro s
  induction s with
  | nil => intro b a h; simp [splitOnce] at h
  | cons c rest ih =>
    intro b a h
    rw [splitOnce] at h
    split at h
    · rename_i hp
      obtain ⟨t, ht⟩ := List.isPrefixOf_iff_prefix.mp hp
      injection h with h'
      injection h' with h1 h2
      subst h1
      simp only [List.nil_append]
      rw [← ht] at h2 ⊢
      rw [List.drop_left] at h2
      rw [h2]
    · cases hrec : splitOnce pat rest with
      | none => rw [hrec] at h; simp at h
      | some p =>
        rw [hrec] at h
        simp only [Option.map_some'] at h
        injection h with h'
        obtain ⟨b', a'⟩ := p
        injection h' with h1 h2
        subst h1 h2
        have := ih b' a' hrec
        simp [this]

theorem splitOnce_length (pat s before after : List Char)
    (h : splitOnce pat s = some (before, after)) :
    before.length + pat.length + after.length = s.length := by
  have := splitOnce_eq_some pat s before after h
  subst this
  simp
  omega

theorem find_opening_tag_spec (value before key after : List Char) (skip : Nat)
    (h : ParsedValue.find_opening_tag value = some (before, key, after, skip)) :
    ∃ raw, value = before ++ ['<'] ++ raw ++ ['>'] ++ after ∧ key = trim raw ∧
      skip = before.length + raw.length + 2 := by
  rw [ParsedValue.find_opening_tag] at h
  cases h1 : splitOnce ['<'] value with
  | none => rw [h1] at h; simp at h
  | some p1 =>
    rw [h1] at h
    obtain ⟨b1, rest⟩ := p1
    cases h2 : splitOnce ['>'] rest with
    | none =>
      simp only [h2] at h
      exact Option.noConfusion h
    | some p2 =>
      simp only [h2] at h
      obtain ⟨ident, a2⟩ := p2
      injection h with h'
      injection h' with hb h'
      injection h' with hk h'
      injection h' with ha hs
      subst hb hk ha hs
      refine ⟨ident, ?_, rfl, rfl⟩
      have e1 := splitOnce_eq_some _ _ _ _ h1
      have e2 := splitOnce_eq_some _ _ _ _ h2
      rw [e1, e2]
      simp

theorem find_opening_tag_progress (value before key after : List Char) (skip : Nat)
    (h : ParsedValue.find_opening_tag value = some (before, key, after, skip)) :
    2 ≤ skip ∧ value.drop skip = after ∧ skip + after.length = value.length := by
  obtain ⟨raw, hv, hk, hs⟩ := find_opening_tag_spec value before key after skip h
  subst hv hs
  refine ⟨by omega, ?_, by simp; omega⟩
  have heq : before ++ ['<'] ++ raw ++ ['>'] ++ after =
      (before ++ ['<'] ++ raw ++ ['>']) ++ after := by simp
  rw [heq]
  have hlen : (before ++ ['<'] ++ raw ++ ['>']).length = before.length + raw.length + 2 := by
    simp
    omega
  rw [← hlen, List.drop_left]

theorem find_closing_tag_shape (value key : List Char) (k : Key) (before after : List Char)
    (h : ParsedValue.find_closing_tag value key = some (k, before, after)) :
    ∃ s e, before = value.take s ∧ after = value.drop e := by
  rw [ParsedValue.find_closing_tag] at h
  cases h1 : Key.try_new (strL "comp_" ++ key) with
  | none => rw [h1] at h; exact Option.noConfusion h
  | some kid =>
    rw [h1] at h
    cases h2 : ((tagCandidates value).foldl (closingStep key) (none, 0)).1 with
    | none => rw [h2] at h; exact Option.noConfusion h
    | some p =>
      rw [h2] at h
      obtain ⟨s, e⟩ := p
      injection h with h'
      injection h' with hk h'
      injection h' with hb ha
      exact ⟨s, e, hb.symm, ha.symm⟩

theorem find_closing_tag_sub_length (value key : List Char) (k : Key)
    (before after : List Char)
    (h : ParsedValue.find_closing_tag value key = some (k, before, after)) :
    before.length ≤ value.length ∧ after.length ≤ value.length := by
  obtain ⟨s, e, hb, ha⟩ := find_closing_tag_shape value key k before after h
  subst hb ha
  constructor
  · simp
  · simp

theorem find_valid_component_aux_sub (value : List Char) :
    ∀ (fuel skip_sum : Nat) (k : Key) (before beetween after : List Char),
      ParsedValue.find_valid_component_aux value fuel skip_sum =
        some (k, before, beetween, after) →
      before.length < value.length ∧ beetween.length < value.length ∧
        after.length < value.length := by
  intro fuel
  induction fuel with
  | zero => intro skip_sum k b m a h; exact Option.noConfusion h
  | succ fuel ih =>
    intro skip_sum k b m a h
    rw [ParsedValue.find_valid_component_aux] at h
    cases h1 : ParsedValue.find_opening_tag (value.drop skip_sum) with
    | none => rw [h1] at h; exact Option.noConfusion h
    | some p1 =>
      rw [h1] at h
      obtain ⟨before1, key1, after1, skip1⟩ := p1
      dsimp only at h
      obtain ⟨raw, hdec, hkey, hskip⟩ := find_opening_tag_spec _ _ _ _ _ h1
      have hdroplen : (value.drop skip_sum).length = value.length - skip_sum := by simp
      have hlen1 : before1.length + raw.length + 2 + after1.length =
          value.length - skip_sum := by
        have := congrArg List.length hdec
        simp at this
        omega
      cases h2 : ParsedValue.find_closing_tag after1 key1 with
      | some p2 =>
        rw [h2] at h
        obtain ⟨k2, beetween2, after2⟩ := p2
        injection h with h'
        injection h' with hk h'
        injection h' with hb h'
        injection h' with hm ha
        subst hk hb hm ha
        have hsub := find_closing_tag_sub_length _ _ _ _ _ h2
        have hvlen : 2 ≤ value.length - skip_sum := by omega
        refine ⟨?_, by omega, by omega⟩
        simp only [List.length_take]
        omega
      | none =>
        rw [h2] at h
        exact ih (skip_sum + skip1) k b m a h

theorem find_valid_component_sub (value : List Char) (k : Key)
    (before beetween after : List Char)
    (h : ParsedValue.find_valid_component value = some (k, before, beetween, after)) :
    before.length < value.length ∧ beetween.length < value.length ∧
      after.length < value.length :=
  find_valid_component_aux_sub value (value.length + 1) 0 k before beetween after h

theorem find_valid_component_aux_stable (value : List Char) :
    ∀ (n skip_sum fuel1 fuel2 : Nat), value.length - skip_sum ≤ n →
      value.length - skip_sum < fuel1 → value.length - skip_sum < fuel2 →
      ParsedValue.find_valid_component_aux value fuel1 skip_sum =
        ParsedValue.find_valid_component_aux value fuel2 skip_sum := by
  intro n
  induction n with
  | zero =>
    intro skip_sum fuel1 fuel2 hn h1 h2
    obtain ⟨g1, rfl⟩ : ∃ g, fuel1 = g + 1 := ⟨fuel1 - 1, by omega⟩
    obtain ⟨g2, rfl⟩ : ∃ g, fuel2 = g + 1 := ⟨fuel2 - 1, by omega⟩
    rw [ParsedValue.find_valid_component_aux, ParsedValue.find_valid_component_aux]
    cases h3 : ParsedValue.find_opening_tag (value.drop skip_sum) with
    | none => rfl
    | some p =>
      obtain ⟨before, key, after, skip⟩ := p
      exfalso
      obtain ⟨raw, hdec, -, -⟩ := find_opening_tag_spec _ _ _ _ _ h3
      have := congrArg List.length hdec
      simp at this
      omega
  | succ n ih =>
    intro skip_sum fuel1 fuel2 hn h1 h2
    obtain ⟨g1, rfl⟩ : ∃ g, fuel1 = g + 1 := ⟨fuel1 - 1, by omega⟩
    obtain ⟨g2, rfl⟩ : ∃ g, fuel2 = g + 1 := ⟨fuel2 - 1, by omega⟩
    rw [ParsedValue.find_valid_component_aux, ParsedValue.find_valid_component_aux]
    cases h3 : ParsedValue.find_opening_tag (value.drop skip_sum) with
    | none => rfl
    | some p =>
      obtain ⟨before, key, after, skip⟩ := p
      dsimp only
      cases h4 : ParsedValue.find_closing_tag after key with
      | some q => rfl
      | none =>
        obtain ⟨hskip2, hdrop, hlen⟩ := find_opening_tag_progress _ _ _ _ _ h3
        have hdroplen : (value.drop skip_sum).length = value.length - skip_sum := by simp
        exact ih (skip_sum + skip) g1 g2 (by omega) (by omega) (by omega)

theorem find_component_congr (p q : List Char → ParsedValue) (value : List Char)
    (h : ∀ u : List Char, u.length < value.length → p u = q u) :
    ParsedValue.find_component p value = ParsedValue.find_component q value := by
  rw [ParsedValue.find_component, ParsedValue.find_component]
  cases hv : ParsedValue.find_valid_component value with
  | none => rfl
  | some r =>
    obtain ⟨k, b, m, a⟩ := r
    have hsub := find_valid_component_sub value k b m a hv
    dsimp only
    rw [h b hsub.1, h m hsub.2.1, h a hsub.2.2]

theorem find_variable_congr (p q : List Char → ParsedValue) (value : List Char)
    (h : ∀ u : List Char, u.length < value.length → p u = q u) :
    ParsedValue.find_variable p value = ParsedValue.find_variable q value := by
  rw [ParsedValue.find_variable, ParsedValue.find_variable]
  cases h1 : splitOnce varOpenDelim value with
  | none => rfl
  | some p1 =>
    obtain ⟨before, rest⟩ := p1
    have l1 := splitOnce_length _ _ _ _ h1
    dsimp only
    cases h2 : splitOnce varCloseDelim rest with
    | none => rfl
    | some p2 =>
      obtain ⟨ident, after⟩ := p2
      have l2 := splitOnce_length _ _ _ _ h2
      dsimp only
      cases h3 : Key.try_new (strL "var_" ++ trim ident) with
      | none => rfl
      | some key =>
        dsimp only
        rw [h before (by simp [varOpenDelim, varCloseDelim] at l1 l2; omega),
          h after (by simp [varOpenDelim, varCloseDelim] at l1 l2; omega)]

theorem newF_stable :
    ∀ (n : Nat) (value : List Char), value.length ≤ n →
      ∀ fuel1 fuel2, value.length < fuel1 → value.length < fuel2 →
        ParsedValue.newF fuel1 value = ParsedValue.newF fuel2 value := by
  intro n
  induction n with
  | zero =>
    intro value hlen fuel1 fuel2 h1 h2
    have hnil : value = [] := List.eq_nil_of_length_eq_zero (by omega)
    subst hnil
    obtain ⟨g1, rfl⟩ : ∃ g, fuel1 = g + 1 := ⟨fuel1 - 1, by omega⟩
    obtain ⟨g2, rfl⟩ : ∃ g, fuel2 = g + 1 := ⟨fuel2 - 1, by omega⟩
    rfl
  | succ n ih =>
    intro value hlen fuel1 fuel2 h1 h2
    obtain ⟨g1, rfl⟩ : ∃ g, fuel1 = g + 1 := ⟨fuel1 - 1, by omega⟩
    obtain ⟨g2, rfl⟩ : ∃ g, fuel2 = g + 1 := ⟨fuel2 - 1, by omega⟩
    have hcong : ∀ u : List Char, u.length < value.length →
        ParsedValue.newF g1 u = ParsedValue.newF g2 u := by
      intro u hu
      exact ih u (by omega) g1 g2 (by omega) (by omega)
    rw [ParsedValue.newF, ParsedValue.newF,
      find_component_congr _ _ _ hcong, find_variable_congr _ _ _ hcong]

theorem newF_eq_new (fuel : Nat) (value : List Char) (h : value.length < fuel) :
    ParsedValue.newF fuel value = ParsedValue.new value :=
  newF_stable value.length value (Nat.le_refl _) fuel (value.length + 1) h (Nat.lt_succ_self _)

theorem foldl_closingStep_eq_scan (key : List Char) :
    ∀ (cs : List (Nat × List Char)) (acc : Option (Nat × Nat)) (depth : Nat),
      (cs.foldl (closingStep key) (acc, depth)).1 =
        match closingScanMatch key depth cs with
        | some m => some m
        | none => acc := by
  intro cs
  induction cs with
  | nil => intro acc depth; rfl
  | cons c rest ih =>
    intro acc depth
    rw [List.foldl_cons, closingScanMatch]
    rw [closingStep]
    cases hs : stripLeadingSlash c.2 with
    | some r =>
      dsimp only
      by_cases hne : trimStart r ≠ key
      · rw [if_pos hne, if_pos hne]
        exact ih acc depth
      · rw [if_neg hne, if_neg hne]
        by_cases hd : depth = 0
        · rw [if_pos hd, if_pos hd]
          subst hd
          rw [ih (some (c.1, c.1 + c.2.length + 2)) 0]
          cases closingScanMatch key 0 rest with
          | none => rfl
          | some m => rfl
        · rw [if_neg hd, if_neg hd]
          exact ih acc (depth - 1)
    | none =>
      dsimp only
      by_cases he : c.2 = key
      · rw [if_pos he, if_pos he]
        exact ih acc (depth + 1)
      · rw [if_neg he, if_neg he]
        exact ih acc depth

theorem mergeOpt_empty (keys : Option (Finset InterpolateKey)) : mergeOpt keys ∅ = keys := by
  cases keys with
  | none => simp [mergeOpt]
  | some t => simp [mergeOpt]

theorem mergeOpt_mergeOpt (keys : Option (Finset InterpolateKey))
    (s t : Finset InterpolateKey) :
    mergeOpt (mergeOpt keys s) t = mergeOpt keys (s ∪ t) := by
  cases keys with
  | some u => simp [mergeOpt, Finset.union_assoc]
  | none =>
    by_cases hs : s = ∅
    · subst hs; simp [mergeOpt]
    · by_cases ht : t = ∅
      · subst ht; simp [mergeOpt, hs]
      · have hst : s ∪ t ≠ ∅ := by
          intro hc
          exact hs (Finset.union_eq_empty.mp hc).1
        simp [mergeOpt, hs, ht, hst]

theorem mergeOpt_insert (keys : Option (Finset InterpolateKey)) (k : InterpolateKey)
    (s : Finset InterpolateKey) :
    some (insert k ((mergeOpt keys s).getD ∅)) = mergeOpt keys (insert k s) := by
  cases keys with
  | some t => simp [mergeOpt, Finset.union_insert, Finset.insert_union]
  | none =>
    by_cases hs : s = ∅
    · subst hs; simp [mergeOpt]
    · simp [mergeOpt, hs, Finset.insert_ne_empty]

mutual

theorem get_keys_inner_eq (v : ParsedValue) :
    ∀ keys, ParsedValue.get_keys_inner v keys = mergeOpt keys (keySet v) := by
  intro keys
  cases v with
  | String s => rw [ParsedValue.get_keys_inner, keySet, mergeOpt_empty]
  | Variable k =>
    rw [ParsedValue.get_keys_inner, keySet]
    cases keys with
    | none => simp [insertKey, mergeOpt, Finset.insert_ne_empty]
    | some t =>
      simp [insertKey, mergeOpt]
      rw [Finset.union_comm]
      simp [Finset.insert_union, Finset.insert_eq]
  | Component k inner =>
    rw [ParsedValue.get_keys_inner, keySet]
    rw [get_keys_inner_eq inner]
    have hstep : some (insertKey (InterpolateKey.Component k) keys) =
        mergeOpt keys {InterpolateKey.Component k} := by
      cases keys with
      | none => simp [insertKey, mergeOpt, Finset.insert_ne_empty]
      | some t =>
        simp [insertKey, mergeOpt]
        rw [Finset.union_comm]
        simp [Finset.insert_union, Finset.insert_eq]
    rw [hstep, mergeOpt_mergeOpt, Finset.insert_eq]
  | Bloc vs =>
    rw [ParsedValue.get_keys_inner, keySet]
    exact get_keys_inner_list_eq vs keys
  | Plural t bs =>
    rw [ParsedValue.get_keys_inner, keySet]
    rw [get_keys_inner_branches_eq bs]
    simp only [insertKey]
    rw [mergeOpt_insert]

theorem get_keys_inner_list_eq (vs : List ParsedValue) :
    ∀ keys, ParsedValue.get_keys_inner_list vs keys = mergeOpt keys (keySetList vs) := by
  intro keys
  cases vs with
  | nil => rw [ParsedValue.get_keys_inner_list, keySetList, mergeOpt_empty]
  | cons v rest =>
    rw [ParsedValue.get_keys_inner_list, keySetList]
    rw [get_keys_inner_eq v, get_keys_inner_list_eq rest, mergeOpt_mergeOpt]

theorem get_keys_inner_branches_eq (bs : List (PluralForm × ParsedValue)) :
    ∀ keys, ParsedValue.get_keys_inner_branches bs keys = mergeOpt keys (keySetBranches bs) := by
  intro keys
  cases bs with
  | nil => rw [ParsedValue.get_keys_inner_branches, keySetBranches, mergeOpt_empty]
  | cons b rest =>
    rw [ParsedValue.get_keys_inner_branches, keySetBranches]
    rw [get_keys_inner_eq b.2, get_keys_inner_branches_eq rest, mergeOpt_mergeOpt]

end

theorem newF_ternary (fuel : Nat) :
    ∀ value : List Char, TernaryBlocs (ParsedValue.newF fuel value) := by
  induction fuel with
  | zero => intro value; exact TernaryBlocs.string value
  | succ fuel ih =>
    intro value
    rw [ParsedValue.newF]
    cases hc : ParsedValue.find_component (ParsedValue.newF fuel) value with
    | some component =>
      dsimp only
      rw [ParsedValue.find_component] at hc
      cases hv : ParsedValue.find_valid_component value with
      | none => rw [hv] at hc; exact Option.noConfusion hc
      | some r =>
        obtain ⟨k, b, m, a⟩ := r
        rw [hv] at hc
        dsimp only at hc
        injection hc with hc'
        subst hc'
        exact TernaryBlocs.blocComp _ _ _ _ (ih b) (ih m) (ih a)
    | none =>
      dsimp only
      cases hvar : ParsedValue.find_variable (ParsedValue.newF fuel) value with
      | some v =>
        dsimp only
        rw [ParsedValue.find_variable] at hvar
        cases h1 : splitOnce varOpenDelim value with
        | none => rw [h1] at hvar; exact Option.noConfusion hvar
        | some p1 =>
          obtain ⟨before, rest⟩ := p1
          rw [h1] at hvar
          dsimp only at hvar
          cases h2 : splitOnce varCloseDelim rest with
          | none => rw [h2] at hvar; exact Option.noConfusion hvar
          | some p2 =>
            obtain ⟨ident, after⟩ := p2
            rw [h2] at hvar
            dsimp only at hvar
            cases h3 : Key.try_new (strL "var_" ++ trim ident) with
            | none => rw [h3] at hvar; exact Option.noConfusion hvar
            | some key =>
              rw [h3] at hvar
              dsimp only at hvar
              injection hvar with hvar'
              subst hvar'
              exact TernaryBlocs.blocVar _ _ _ (ih before) (ih after)
      | none => exact TernaryBlocs.string value

theorem occursIn_append (pat pre post : List Char) (hpat : pat ≠ []) :
    occursIn pat (pre ++ pat ++ post) = true := by
  induction pre with
  | nil =>
    rw [occursIn]
    cases hp : pat ++ post with
    | nil =>
      exfalso
      exact hpat (List.append_eq_nil.mp hp).1
    | cons c rest =>
      rw [List.nil_append, hp, splitOnce]
      have hpre : pat.isPrefixOf (c :: rest) = true := by
        rw [← hp]
        exact List.isPrefixOf_iff_prefix.mpr ⟨post, rfl⟩
      rw [if_pos hpre]
      rfl
  | cons c rest ih =>
    rw [occursIn, List.cons_append, List.cons_append, splitOnce]
    split
    · rfl
    · rw [occursIn] at ih
      simp only [Option.isSome_map']
      exact ih

theorem ctxMsg_context (seed : ParsedValueSeed) (tail : List Char) :
    occursIn (rustDebugStr seed.locale) (ctxMsg seed tail) = true ∧
    occursIn (rustDebugStr seed.locale_key) (ctxMsg seed tail) = true ∧
    (∀ ns, seed.«namespace» = some ns →
      occursIn (rustDebugStr ns) (ctxMsg seed tail) = true) := by
  have hne : ∀ s : List Char, rustDebugStr s ≠ [] := by
    intro s h
    exact List.noConfusion h
  cases hns : seed.«namespace» with
  | none =>
    rw [ctxMsg, hns]
    refine ⟨?_, ?_, ?_⟩
    · have := occursIn_append (rustDebugStr seed.locale) (strL "in locale ")
        (strL " at key " ++ rustDebugStr seed.locale_key ++ strL ": " ++ tail) (hne _)
      simpa using this
    · have := occursIn_append (rustDebugStr seed.locale_key)
        (strL "in locale " ++ rustDebugStr seed.locale ++ strL " at key ")
        (strL ": " ++ tail) (hne _)
      simpa using this
    · intro ns hc
      exact Option.noConfusion hc
  | some ns =>
    rw [ctxMsg, hns]
    refine ⟨?_, ?_, ?_⟩
    · have := occursIn_append (rustDebugStr seed.locale) (strL "in locale ")
        (strL " at namespace " ++ rustDebugStr ns ++ strL " at key " ++
          rustDebugStr seed.locale_key ++ strL ": " ++ tail) (hne _)
      simpa using this
    · have := occursIn_append (rustDebugStr seed.locale_key)
        (strL "in locale " ++ rustDebugStr seed.locale ++ strL " at namespace " ++
          rustDebugStr ns ++ strL " at key ")
        (strL ": " ++ tail) (hne _)
      simpa using this
    · intro ns2 hc
      injection hc with hc'
      subst hc'
      have := occursIn_append (rustDebugStr ns)
        (strL "in locale " ++ rustDebugStr seed.locale ++ strL " at namespace ")
        (strL " at key " ++ rustDebugStr seed.locale_key ++ strL ": " ++ tail) (hne _)
      simpa using this

theorem from_serde_map_branches_ok (seed : ParsedValueSeed) :
    ∀ entries : List (PluralForm × RawValue), (∀ e ∈ entries, e.2.isStr = true) →
      ∃ bs, Plurals.from_serde_map_branches seed entries = Except.ok bs ∧
        bs.map Prod.fst = entries.map Prod.fst := by
  intro entries
  induction entries with
  | nil =>
    intro _
    refine ⟨[], ?_, rfl⟩
    rw [Plurals.from_serde_map_branches]
  | cons e rest ih =>
    intro h
    obtain ⟨f, rv⟩ := e
    cases rv with
    | map m =>
      have := h (f, RawValue.map m) (List.mem_cons_self _ _)
      simp [RawValue.isStr] at this
    | str sv =>
      obtain ⟨bs, hbs, hform⟩ := ih (fun e he => h e (List.mem_cons_of_mem _ he))
      refine ⟨(f, ParsedValue.new sv) :: bs, ?_, ?_⟩
      · rw [Plurals.from_serde_map_branches]
        rw [ParsedValueSeed.deserialize]
        dsimp only
        rw [hbs]
      · simp [hform]

/-- C1 (amended): for every input string and candidate opening tag name, the
closing-tag search uses same-name depth tracking — depth increments on every
later opening tag with the exact same name and decrements on a same-name
closing tag seen while depth is positive — and a same-name closing tag seen at
depth 0 is recorded as the match, with every later same-name closing tag seen
at depth 0 replacing it: the final match is the last such occurrence, not the
first. -/
theorem claim_C1 (value key : List Char) :
    ParsedValue.find_closing_tag value key =
      match Key.try_new (strL "comp_" ++ key) with
      | none => none
      | some key_ident =>
        (closingScanMatch key 0 (tagCandidates value)).map
          (fun p => (key_ident, value.take p.1, value.drop p.2)) := by
  rw [ParsedValue.find_closing_tag]
  cases Key.try_new (strL "comp_" ++ key) with
  | none => rfl
  | some kid =>
    dsimp only
    rw [foldl_closingStep_eq_scan]
    cases closingScanMatch key 0 (tagCandidates value) with
    | none => rfl
    | some m =>
      obtain ⟨s, e⟩ := m
      rfl

/-- C1 is false as stated: on `a</b>c</b>d` with candidate name `b`, the first
same-name closing tag at depth 0 is the one after `a`, but the code returns the
match at the second (last) one — the later same-name closing tag did change the
match, so the first-occurrence reading (`find_closing_tag_claimed`) disagrees
with the code. -/
theorem claim_C1_counterexample :
    ParsedValue.find_closing_tag (strL "a</b>c</b>d") (strL "b") ≠
      find_closing_tag_claimed (strL "a</b>c</b>d") (strL "b") ∧
    ParsedValue.find_closing_tag (strL "a</b>c</b>d") (strL "b") =
      some (⟨strL "comp_b"⟩, strL "a</b>c", strL "d") ∧
    find_closing_tag_claimed (strL "a</b>c</b>d") (strL "b") =
      some (⟨strL "comp_b"⟩, strL "a", strL "c</b>d") :=
  ⟨by decide, by decide, by decide⟩

/-- C2 (amended): every `Bloc` (sequence) node the parser constructs has
exactly three elements — the parse of the text before the match, the matched
`Variable` or `Component` node, and the parse of the text after — but those
outer parses may themselves be `Bloc`s, so a sequence may contain another
sequence among its elements; flatness does not hold by construction. -/
theorem claim_C2 (value : List Char) : TernaryBlocs (ParsedValue.new value) :=
  newF_ternary (value.length + 1) value

/-- C2 is false as stated: parsing two consecutive variable placeholders
produces a `Bloc` whose third element is itself a `Bloc`, a sequence directly
containing another sequence. -/
theorem claim_C2_counterexample :
    ParsedValue.new (varOpenDelim ++ strL "a" ++ varCloseDelim ++
        varOpenDelim ++ strL "b" ++ varCloseDelim) =
      ParsedValue.Bloc [ParsedValue.String [], ParsedValue.Variable ⟨strL "var_a"⟩,
        ParsedValue.Bloc [ParsedValue.String [], ParsedValue.Variable ⟨strL "var_b"⟩,
          ParsedValue.String []]] ∧
    hasBlocElem (ParsedValue.new (varOpenDelim ++ strL "a" ++ varCloseDelim ++
        varOpenDelim ++ strL "b" ++ varCloseDelim)) = true :=
  ⟨by rfl, by rfl⟩

/-- C3: evaluation of the code at the failing input.  With trailing whitespace
inside the closing tag (`</comp >`), the returned `after` segment is `> after`
rather than ` after`: the end index of the match is computed from the trimmed
ident length (`end_i = i + ident.len() + 2` after `ident.trim()`), so the
whitespace and the `>` of the closing tag leak into `after`, contradicting the
claim that `after` begins immediately after the closing tag's `>`.  `before`
and `inner` are still exact. -/
theorem claim_C3 :
    ParsedValue.find_valid_component (strL "before <comp>inner</comp > after") =
      some (⟨strL "comp_comp"⟩, strL "before ", strL "inner", strL "> after") ∧
    ParsedValue.new (strL "before <comp>inner</comp > after") =
      ParsedValue.Bloc [ParsedValue.String (strL "before "),
        ParsedValue.Component ⟨strL "comp_comp"⟩ (ParsedValue.String (strL "inner")),
        ParsedValue.String (strL "> after")] :=
  ⟨by decide, by rfl⟩

/-- C4: with the validator not already inside a plural and every branch value a
scalar string, the checks run in source order on the authored selector list:
a misplaced fallback gives the `fallback is only allowed in last position`
error; otherwise more than one fallback gives the `multiple fallbacks are not
allowed` error; otherwise no fallback while the inferred type mandates one
gives the `a fallback is required` error naming the inferred type; otherwise
the `Plural` node is produced.  Every context message contains the quoted
locale id, the quoted key name, and the quoted namespace when present. -/
theorem claim_C4 (seed : ParsedValueSeed) (entries : List (PluralForm × RawValue))
    (h1 : seed.in_plural = false) (h2 : ∀ e ∈ entries, e.2.isStr = true) :
    (fallbackMisplaced (entries.map Prod.fst) = true →
      ParsedValueSeed.visit_map seed entries =
        Except.error (ctxMsg seed (strL "fallback is only allowed in last position")))
    ∧ (fallbackMisplaced (entries.map Prod.fst) = false →
        1 < countFallbacks (entries.map Prod.fst) →
        ParsedValueSeed.visit_map seed entries =
          Except.error (ctxMsg seed (strL "multiple fallbacks are not allowed")))
    ∧ (fallbackMisplaced (entries.map Prod.fst) = false →
        countFallbacks (entries.map Prod.fst) = 0 →
        pluralExhaustive (inferPluralType (entries.map Prod.fst))
          (entries.map Prod.fst) = false →
        ParsedValueSeed.visit_map seed entries =
          Except.error (ctxMsg seed (strL "for plural type " ++
            pluralTypeDebug (inferPluralType (entries.map Prod.fst)) ++
            strL " a fallback is required")))
    ∧ (fallbackMisplaced (entries.map Prod.fst) = false →
        countFallbacks (entries.map Prod.fst) ≤ 1 →
        (countFallbacks (entries.map Prod.fst) = 0 →
          pluralExhaustive (inferPluralType (entries.map Prod.fst))
            (entries.map Prod.fst) = true) →
        ∃ bs, ParsedValueSeed.visit_map seed entries =
          Except.ok (ParsedValue.Plural (inferPluralType (entries.map Prod.fst)) bs) ∧
          bs.map Prod.fst = entries.map Prod.fst)
    ∧ (∀ tail, occursIn (rustDebugStr seed.locale) (ctxMsg seed tail) = true ∧
        occursIn (rustDebugStr seed.locale_key) (ctxMsg seed tail) = true ∧
        (∀ ns, seed.«namespace» = some ns →
          occursIn (rustDebugStr ns) (ctxMsg seed tail) = true)) := by
  obtain ⟨bs, hbs, hform⟩ := from_serde_map_branches_ok { seed with in_plural := true } entries h2
  have hmap : Plurals.from_serde_map { seed with in_plural := true } entries =
      Except.ok ⟨inferPluralType (entries.map Prod.fst), bs⟩ := by
    rw [Plurals.from_serde_map, hbs]
    dsimp only
    rw [hform]
  have hvm : ParsedValueSeed.visit_map seed entries =
      (if fallbackMisplaced (entries.map Prod.fst) then
        Except.error (ctxMsg seed (strL "fallback is only allowed in last position"))
      else if countFallbacks (entries.map Prod.fst) > 1 then
        Except.error (ctxMsg seed (strL "multiple fallbacks are not allowed"))
      else if countFallbacks (entries.map Prod.fst) = 0 &&
          !(pluralExhaustive (inferPluralType (entries.map Prod.fst))
            (entries.map Prod.fst)) then
        Except.error (ctxMsg seed (strL "for plural type " ++
          pluralTypeDebug (inferPluralType (entries.map Prod.fst)) ++
          strL " a fallback is required"))
      else
        Except.ok (ParsedValue.Plural (inferPluralType (entries.map Prod.fst)) bs)) := by
    unfold ParsedValueSeed.visit_map
    rw [h1]
    simp only [Bool.false_eq_true, if_false]
    rw [hmap]
    dsimp only [Plurals.check_deserialization, Plurals.get_type, Plurals.should_have_fallback]
    rw [hform]
  refine ⟨?_, ?_, ?_, ?_, fun tail => ctxMsg_context seed tail⟩
  · intro hmis
    rw [hvm, if_pos hmis]
  · intro hmis hcnt
    rw [hvm, if_neg (by simp [hmis]), if_pos hcnt]
  · intro hmis hcnt hexh
    rw [hvm, if_neg (by simp [hmis]), if_neg (by omega), if_pos (by simp [hcnt, hexh])]
  · intro hmis hcnt hexh
    refine ⟨bs, ?_, hform⟩
    rw [hvm, if_neg (by simp [hmis]), if_neg (by omega), if_neg ?_]
    simp only [Bool.and_eq_true, Bool.not_eq_true', not_and, decide_eq_true_eq]
    intro hz
    rw [hexh hz]
    simp

/-- Witness for C4 at a concrete seed and a single-fallback mapping: the
validator succeeds and produces the plural node. -/
theorem claim_C4_witness :
    ∃ bs, ParsedValueSeed.visit_map ⟨false, strL "en", strL "greeting", none⟩
        [(PluralForm.fallback, RawValue.str (strL "hello"))] =
      Except.ok (ParsedValue.Plural (inferPluralType [PluralForm.fallback]) bs) ∧
      bs.map Prod.fst = [PluralForm.fallback] :=
  (claim_C4 ⟨false, strL "en", strL "greeting", none⟩
    [(PluralForm.fallback, RawValue.str (strL "hello"))] rfl
    (by decide)).2.2.2.1 (by decide) (by decide) (by decide)

/-- C5: validating any mapping while the `in_plural` flag is set fails with the
nested-plurals error before anything else is examined — for every seed and
every entry list, whatever its depth or contents — and the message contains the
quoted locale id, the quoted key name, and the quoted namespace when
present. -/
theorem claim_C5 (seed : ParsedValueSeed) (entries : List (PluralForm × RawValue))
    (h : seed.in_plural = true) :
    ParsedValueSeed.visit_map seed entries =
      Except.error (ctxMsg seed (strL "nested plurals are not allowed")) ∧
    occursIn (rustDebugStr seed.locale)
      (ctxMsg seed (strL "nested plurals are not allowed")) = true ∧
    occursIn (rustDebugStr seed.locale_key)
      (ctxMsg seed (strL "nested plurals are not allowed")) = true ∧
    (∀ ns, seed.«namespace» = some ns →
      occursIn (rustDebugStr ns)
        (ctxMsg seed (strL "nested plurals are not allowed")) = true) := by
  have hctx := ctxMsg_context seed (strL "nested plurals are not allowed")
  refine ⟨?_, hctx.1, hctx.2.1, hctx.2.2⟩
  unfold ParsedValueSeed.visit_map
  rw [h]
  simp

/-- Witness for C5 at a concrete seed with the flag set and a deeply nested
mapping. -/
theorem claim_C5_witness :
    ParsedValueSeed.visit_map ⟨true, strL "en", strL "greeting", some (strL "common")⟩
        [(PluralForm.fallback, RawValue.map [(PluralForm.fallback, RawValue.str (strL "x"))])] =
      Except.error (ctxMsg ⟨true, strL "en", strL "greeting", some (strL "common")⟩
        (strL "nested plurals are not allowed")) :=
  (claim_C5 ⟨true, strL "en", strL "greeting", some (strL "common")⟩
    [(PluralForm.fallback, RawValue.map [(PluralForm.fallback, RawValue.str (strL "x"))])]
    rfl).1

/-- C6: a string with no complete variable-delimiter pair and no valid
component tag pair parses to a literal of exactly itself. -/
theorem claim_C6 (value : List Char) (h1 : noVarPairB value = true)
    (h2 : ParsedValue.find_valid_component value = none) :
    ParsedValue.new value = ParsedValue.String value := by
  rw [ParsedValue.new, ParsedValue.newF]
  have hc : ParsedValue.find_component (ParsedValue.newF value.length) value = none := by
    rw [ParsedValue.find_component, h2]
  rw [hc]
  dsimp only
  have hv : ParsedValue.find_variable (ParsedValue.newF value.length) value = none := by
    rw [ParsedValue.find_variable]
    rw [noVarPairB] at h1
    cases hs : splitOnce varOpenDelim value with
    | none => rfl
    | some p =>
      obtain ⟨b, rest⟩ := p
      rw [hs] at h1
      dsimp only at h1
      dsimp only
      cases hs2 : splitOnce varCloseDelim rest with
      | none => rfl
      | some q =>
        rw [hs2] at h1
        simp at h1
  rw [hv]

/-- Witness for C6 at the empty string: parsing the empty string yields the
literal empty string. -/
theorem claim_C6_witness :
    noVarPairB [] = true ∧ ParsedValue.find_valid_component [] = none ∧
    ParsedValue.new [] = ParsedValue.String [] :=
  ⟨by decide, by decide, claim_C6 [] (by decide) (by decide)⟩

/-- C7: when the first variable-delimiter pair yields an ident whose `Key`
construction fails and the string has no valid component, the variable scanner
reports no match — whatever recursive parser it is given, so no later pair is
attempted — and parsing returns the whole original input as a literal,
byte-for-byte. -/
theorem claim_C7 (value : List Char) (h1 : firstVarKeyFails value = true)
    (h2 : ParsedValue.find_valid_component value = none) :
    (∀ p, ParsedValue.find_variable p value = none) ∧
    ParsedValue.new value = ParsedValue.String value := by
  have hvar : ∀ p, ParsedValue.find_variable p value = none := by
    intro p
    rw [ParsedValue.find_variable]
    rw [firstVarKeyFails] at h1
    cases hs : splitOnce varOpenDelim value with
    | none => rfl
    | some q =>
      obtain ⟨b, rest⟩ := q
      rw [hs] at h1
      dsimp only at h1
      dsimp only
      cases hs2 : splitOnce varCloseDelim rest with
      | none => rfl
      | some q2 =>
        obtain ⟨ident, after⟩ := q2
        rw [hs2] at h1
        dsimp only at h1
        dsimp only
        cases hs3 : Key.try_new (strL "var_" ++ trim ident) with
        | none => rfl
        | some k =>
          rw [hs3] at h1
          simp at h1
  refine ⟨hvar, ?_⟩
  rw [ParsedValue.new, ParsedValue.newF]
  have hc : ParsedValue.find_component (ParsedValue.newF value.length) value = none := by
    rw [ParsedValue.find_component, h2]
  rw [hc]
  dsimp only
  rw [hvar (ParsedValue.newF value.length)]

/-- Witness for C7: the first pair holds the invalid ident `a-b`, a later pair
holds the valid ident `ok`, and the whole string still parses to a literal of
itself — the later pair was never attempted. -/
theorem claim_C7_witness :
    firstVarKeyFails (strL "x" ++ varOpenDelim ++ strL "a-b" ++ varCloseDelim ++
      strL "y" ++ varOpenDelim ++ strL "ok" ++ varCloseDelim ++ strL "z") = true ∧
    ParsedValue.new (strL "x" ++ varOpenDelim ++ strL "a-b" ++ varCloseDelim ++
        strL "y" ++ varOpenDelim ++ strL "ok" ++ varCloseDelim ++ strL "z") =
      ParsedValue.String (strL "x" ++ varOpenDelim ++ strL "a-b" ++ varCloseDelim ++
        strL "y" ++ varOpenDelim ++ strL "ok" ++ varCloseDelim ++ strL "z") :=
  ⟨by decide,
    (claim_C7 (strL "x" ++ varOpenDelim ++ strL "a-b" ++ varCloseDelim ++
      strL "y" ++ varOpenDelim ++ strL "ok" ++ varCloseDelim ++ strL "z")
      (by decide) (by decide)).2⟩

/-- C8: candidate opening tags with no matching closer are skipped with
forward-only progress — the cursor after a rejected candidate lands exactly on
the text following the candidate's closing `>`, at least two characters further
— and remain embedded in literal text: the repository's `parse_skipped_tag`
input parses to the expected flat sequence with `<p>` kept inside the first
literal. -/
theorem claim_C8 :
    ParsedValue.new (strL "<p>test<h3>this is a h3</h3>not closing p") =
      ParsedValue.Bloc [ParsedValue.String (strL "<p>test"),
        ParsedValue.Component ⟨strL "comp_h3"⟩ (ParsedValue.String (strL "this is a h3")),
        ParsedValue.String (strL "not closing p")] ∧
    (∀ (s b k a : List Char) (skip : Nat),
      ParsedValue.find_opening_tag s = some (b, k, a, skip) →
        2 ≤ skip ∧ s.drop skip = a) := by
  refine ⟨by rfl, ?_⟩
  intro s b k a skip h
  have hp := find_opening_tag_progress s b k a skip h
  exact ⟨hp.1, hp.2.1⟩

/-- Witness for C8's progress property at a concrete opening tag. -/
theorem claim_C8_witness :
    ParsedValue.find_opening_tag (strL "<a>x") = some ([], strL "a", strL "x", 3) ∧
    2 ≤ 3 ∧ (strL "<a>x").drop 3 = strL "x" :=
  ⟨by decide, claim_C8.2 (strL "<a>x") [] (strL "a") (strL "x") 3 (by decide)⟩

/-- C9: the key collector computes exactly the reference key set — nothing for
a literal, the variable key, the component key plus its inner contribution, the
union over sequence children, the union over plural branches plus one `Count`
entry — as a true set (`Finset`, so duplicates collapse and order is
meaningless), and the result is `none` exactly when the node references
nothing, never a wrapper around the empty set. -/
theorem claim_C9 (v : ParsedValue) :
    ParsedValue.get_keys v = (if keySet v = ∅ then none else some (keySet v)) ∧
    ParsedValue.get_keys v ≠ some ∅ := by
  have h := get_keys_inner_eq v none
  constructor
  · rw [ParsedValue.get_keys, h]
    rfl
  · rw [ParsedValue.get_keys, h]
    by_cases hk : keySet v = ∅
    · simp [mergeOpt, hk]
    · simp [mergeOpt, hk]

/-- C10: parsing is deterministic, total and terminating: the parser is
fuel-irrelevant above the input length (so every string yields exactly one
AST), every rejected candidate advances the scan cursor by at least two
characters to exactly the text after the candidate, the three segments of a
successful component match are strict sub-strings of the input, and the
candidate-skip loop is likewise fuel-irrelevant above the remaining length. -/
theorem claim_C10 :
    (∀ (value : List Char) (fuel1 fuel2 : Nat), value.length < fuel1 →
      value.length < fuel2 → ParsedValue.newF fuel1 value = ParsedValue.newF fuel2 value) ∧
    (∀ (s b k a : List Char) (skip : Nat),
      ParsedValue.find_opening_tag s = some (b, k, a, skip) →
        2 ≤ skip ∧ s.drop skip = a ∧ skip + a.length = s.length) ∧
    (∀ (value : List Char) (k : Key) (b m a : List Char),
      ParsedValue.find_valid_component value = some (k, b, m, a) →
        b.length < value.length ∧ m.length < value.length ∧ a.length < value.length) ∧
    (∀ (value : List Char) (skip_sum fuel1 fuel2 : Nat),
      value.length - skip_sum < fuel1 → value.length - skip_sum < fuel2 →
      ParsedValue.find_valid_component_aux value fuel1 skip_sum =
        ParsedValue.find_valid_component_aux value fuel2 skip_sum) :=
  ⟨fun value fuel1 fuel2 h1 h2 => newF_stable value.length value (Nat.le_refl _) fuel1 fuel2 h1 h2,
   fun s b k a skip h => find_opening_tag_progress s b k a skip h,
   fun value k b m a h => find_valid_component_sub value k b m a h,
   fun value skip_sum fuel1 fuel2 h1 h2 =>
     find_valid_component_aux_stable value (value.length - skip_sum) skip_sum fuel1 fuel2
       (Nat.le_refl _) h1 h2⟩

/-- Witness for C10 at concrete inputs: fuel-irrelevance of the parser and the
skip loop, cursor progress, and strict sub-strings of a concrete match. -/
theorem claim_C10_witness :
    ParsedValue.newF 2 (strL "u") = ParsedValue.newF 9 (strL "u") ∧
    (2 ≤ 3 ∧ (strL "<b>y").drop 3 = strL "y" ∧ 3 + (strL "y").length = (strL "<b>y").length) ∧
    ((strL "").length < (strL "<a>x</a>").length ∧
      (strL "x").length < (strL "<a>x</a>").length ∧
      (strL "").length < (strL "<a>x</a>").length) ∧
    ParsedValue.find_valid_component_aux (strL "ab") 3 0 =
      ParsedValue.find_valid_component_aux (strL "ab") 9 0 :=
  ⟨claim_C10.1 (strL "u") 2 9 (by decide) (by decide),
   claim_C10.2.1 (strL "<b>y") [] (strL "b") (strL "y") 3 (by decide),
   claim_C10.2.2.1 (strL "<a>x</a>") ⟨strL "comp_a"⟩ (strL "") (strL "x") (strL "")
     (by decide),
   claim_C10.2.2.2 (strL "ab") 0 3 9 (by decide) (by decide)⟩
